import Mathlib

/-!
Verification development for the workflow MCP server: a shallow embedding of
the workflow resolution engine (`loadAndFlattenWorkflow` in the
workflow-execute module), the stepwise advancer (`workflow-run`), the saver
(`workflow-save`) and the plan builder's short-description computation,
together with proofs of the specified properties.

Conventions of the embedding:
* JSON workflow definitions are modelled by `RawWorkflow`; a field that may be
  absent in the JSON is an `Option`.
* The file system is a finite association list `FS` from full path strings to
  parsed definitions; a `none` lookup models a failing `readFile`.
* JavaScript exceptions become the `Except WfError` monad; the distinct error
  kinds correspond one-to-one to the distinct messages thrown by the source.
* The unbounded JS recursion is given a fuel parameter; `WfError.outOfFuel` is
  the artefact of that encoding and is proved unreachable for the fuel used by
  the top-level entry point.
-/

/-- A step of a workflow definition, as read from JSON
(fields used by the engine; any may be absent). -/
structure Step where
  type : Option String
  workflow : Option String
  description : Option String
  template : Option String
  tool : Option String
deriving DecidableEq, Repr

/-- The JSON value found in a definition's `steps` field.
The source checks `!workflow.steps || !Array.isArray(workflow.steps)`:
an absent (or otherwise falsy) field and a non-array value are rejected,
any array — including the empty one — passes. -/
inductive StepsVal where
  /-- the `steps` field is absent (or another falsy value) -/
  | missing
  /-- the `steps` field is present and truthy but not an array -/
  | nonSeq
  /-- the `steps` field is an array -/
  | seq (steps : List Step)
deriving DecidableEq, Repr

/-- A parsed workflow definition file. -/
structure RawWorkflow where
  name : Option String
  description : Option String
  expectedOutputs : Option (List String)
  steps : StepsVal
deriving DecidableEq, Repr

/-- A step annotated with provenance, i.e. the JS object
`{...step, _sourceWorkflow, _parentDescription}`.  The spread keeps every
original field of the step; the two underscore fields are overwritten by
every splice that touches the step. -/
structure ResolvedStep where
  step : Step
  sourceWorkflow : String
  parentDescription : Option String
deriving DecidableEq, Repr

/-- The record returned by `loadAndFlattenWorkflow`. -/
structure ResolvedWorkflow where
  name : Option String
  description : Option String
  expectedOutputs : Option (List String)
  flattenedSteps : List ResolvedStep
deriving DecidableEq, Repr

/-- The distinct failures of `loadAndFlattenWorkflow`, one per distinct
`throw` site of the source (plus the fuel artefact of the embedding). -/
inductive WfError where
  /-- `Circular workflow dependency detected: <name>` -/
  | circularDependency (name : String)
  /-- `readFile` failed for the definition of `<name>` -/
  | notFound (name : String)
  /-- `Invalid workflow '<name>': missing or invalid steps array` -/
  | invalidDefinition (name : String)
  /-- artefact of the fuel encoding, never produced with sufficient fuel -/
  | outOfFuel
deriving DecidableEq, Repr

deriving instance DecidableEq for Except

/-- The file system: an association list from full paths to parsed files. -/
def FS := List (String × RawWorkflow)

/-- `readFile` + `JSON.parse`: the first entry whose path matches. -/
def lookupFS : FS → String → Option RawWorkflow
  | [], _ => none
  | (p, w) :: rest, q => if p = q then some w else lookupFS rest q

/-- Path read by the resolver:
`` `${projectPath}/.workflow/${workflowName}.json` ``. -/
def flattenFileName (projectPath workflowName : String) : String :=
  projectPath ++ "/.workflow/" ++ workflowName ++ ".json"

/-- Path read by the stepwise advancer (workflow-run):
`projectPath + '/.workflow/' + name + '.md'`. -/
def runFileName (projectPath name : String) : String :=
  projectPath ++ "/.workflow/" ++ name ++ ".md"

/-- Path written by the saver (workflow-save):
`workflowDir + '/' + name + '.md'` with `workflowDir = projectPath + '/.workflow'`. -/
def saveFileName (projectPath name : String) : String :=
  (projectPath ++ "/.workflow") ++ "/" ++ name ++ ".md"

/-- The name a `workflow`-typed step passes to the recursive resolution call.
In JS an absent `workflow` field is `undefined`, which the path template
string renders as `"undefined"`. -/
def subName (st : Step) : String := st.workflow.getD "undefined"

/-- The loop body of `loadAndFlattenWorkflow` over the `steps` array.
`resolveSub` is the recursive resolution call (already carrying the copied
`visited` set of this stack frame); `wn` is the name of the workflow being
resolved.  A thrown error aborts the whole loop, exactly as in the source. -/
def flattenSteps (resolveSub : String → Except WfError ResolvedWorkflow)
    (wn : String) : List Step → Except WfError (List ResolvedStep)
  | [] => .ok []
  | st :: rest =>
    if st.type = some "workflow" then
      match resolveSub (subName st) with
      | .error e => .error e
      | .ok sub =>
        match flattenSteps resolveSub wn rest with
        | .error e => .error e
        | .ok tail =>
          .ok (sub.flattenedSteps.map
                (fun q => ⟨q.step, subName st, st.description⟩) ++ tail)
    else
      match flattenSteps resolveSub wn rest with
      | .error e => .error e
      | .ok tail => .ok (⟨st, wn, none⟩ :: tail)

/-- The recursive core of `loadAndFlattenWorkflow`, over an abstract
definition store (name to parsed definition).  Faithful to the source:
the `visited` check precedes the store read; the recursive calls receive
`new Set(visited)` after this frame added its own name, i.e.
`wn :: visited`; each branch carries its own copy. -/
def flattenAux (store : String → Option RawWorkflow) :
    Nat → String → List String → Except WfError ResolvedWorkflow
  | 0, _, _ => .error .outOfFuel
  | fuel + 1, wn, visited =>
    if wn ∈ visited then .error (.circularDependency wn)
    else
      match store wn with
      | none => .error (.notFound wn)
      | some w =>
        match w.steps with
        | .seq l =>
          match flattenSteps (fun b => flattenAux store fuel b (wn :: visited)) wn l with
          | .error e => .error e
          | .ok fl => .ok ⟨w.name, w.description, w.expectedOutputs, fl⟩
        | _ => .error (.invalidDefinition wn)

/-- The definition store seen by the resolver: name `n` is read from
`flattenFileName projectPath n`. -/
def jsonStore (fs : FS) (projectPath : String) : String → Option RawWorkflow :=
  fun n => lookupFS fs (flattenFileName projectPath n)

/-- `loadAndFlattenWorkflow(workflowName, projectPath)` with the default
empty `visited` set.  The fuel `fs.length + 1` is proved sufficient below:
the recursion depth is bounded by the number of distinct stored definitions. -/
def loadAndFlattenWorkflow (fs : FS) (projectPath workflowName : String) :
    Except WfError ResolvedWorkflow :=
  flattenAux (jsonStore fs projectPath) (fs.length + 1) workflowName []

/-- The sub-workflow names directly referenced by the steps of `a`'s
definition (empty when `a` is absent or its steps are not an array). -/
def directRefs (store : String → Option RawWorkflow) (a : String) : List String :=
  match store a with
  | some w =>
    match w.steps with
    | .seq l => l.filterMap (fun st =>
        if st.type = some "workflow" then some (subName st) else none)
    | _ => []
  | none => []

/-- `a` directly references `b`. -/
def Refs (store : String → Option RawWorkflow) (a b : String) : Prop :=
  b ∈ directRefs store a

/-- `a` references `b` through one or more `workflow`-typed steps. -/
def Reaches (store : String → Option RawWorkflow) : String → String → Prop :=
  Relation.TransGen (Refs store)

/-- `b` is `a` itself or is referenced from `a` (zero or more steps). -/
def InGraph (store : String → Option RawWorkflow) : String → String → Prop :=
  Relation.ReflTransGen (Refs store)

/-! ## The stepwise advancer (workflow-run) -/

/-- JS `Number(s)` restricted to the integer literals the advancer is called
with: an optional minus sign followed by decimal digits yields that integer,
anything else yields `none`, modelling `NaN` (for which every `<`/`>`
comparison is false and every array index reads `undefined`).  The source
defaults `step` to `'1'` before this conversion, so the empty string — the
one other falsy value `Number` would map to `0` — never reaches it. -/
def jsNumber (s : String) : Option Int :=
  match s.data with
  | [] => some 0
  | '-' :: rest =>
    if !rest.isEmpty && rest.all Char.isDigit then
      some (-(rest.foldl (fun a c => a * 10 + (c.toNat - 48)) 0 : Nat))
    else none
  | cs =>
    if cs.all Char.isDigit then
      some ((cs.foldl (fun a c => a * 10 + (c.toNat - 48)) 0 : Nat))
    else none

/-- `Number(step) < 1` — false when `Number(step)` is `NaN`. -/
def jsLtOne (n : Option Int) : Bool :=
  match n with
  | some k => k < 1
  | none => false

/-- `Number(step) > obj.steps.length` — false when `Number(step)` is `NaN`. -/
def jsGtLen (n : Option Int) (len : Nat) : Bool :=
  match n with
  | some k => (len : Int) < k
  | none => false

/-- `obj.steps[Number(step) - 1]` on an array: `none` is JS `undefined`,
returned both for `NaN` and for an index outside the array. -/
def jsIndex (l : List Step) (n : Option Int) : Option Step :=
  match n with
  | some k => if 1 ≤ k then l[(k - 1).toNat]? else none
  | none => none

/-- The structured results of the workflow-run handler, one constructor per
`return` site.  `α` is the type of the opaque `inputs` value, which the
handler only echoes.  -/
inductive RunResult (α : Type) where
  /-- the catch branch: `` `Error running workflow '<name>': ...` `` —
  produced when `readFile`, `JSON.parse` or the `.length` access throws -/
  | readError
  /-- `Error: Step number must be greater than 0.` -/
  | invalidStepIndex
  /-- `` `Workflow '<name>' run successfully. All <total> steps have been
  completed. Final outputs are: <inputs>` `` -/
  | complete (totalSteps : Nat) (finalOutputs : α)
  /-- the instruction bundle for one step: the step number string shown, the
  step definition looked up (`none` renders as `undefined`), the echoed
  inputs, and the `step + 1` value for the next call (`none` is `NaN`) -/
  | instruction (stepShown : String) (currentStep : Option Step)
      (currentInputs : α) (nextStep : Option Int)
deriving DecidableEq, Repr

/-- The workflow-run prompt handler.  Reads `.workflow/<name>.md` first;
only then defaults `step`, checks the `< 1` guard, the `> length` ending
condition, and finally builds the instruction bundle.  A definition whose
`steps` is not an array makes `obj.steps.length` throw into the catch
branch (for the `undefined`/`null` values the source could actually meet;
other non-array values are not distinguished by this model and are not
exercised by any claim). -/
def workflowRun {α : Type} (fs : FS) (projectPath name : String)
    (step? : Option String) (inputs : α) : RunResult α :=
  match lookupFS fs (runFileName projectPath name) with
  | none => .readError
  | some w =>
    let stepStr := match step? with
      | none => "1"
      | some s => if s = "" then "1" else s
    let n := jsNumber stepStr
    if jsLtOne n then .invalidStepIndex
    else
      match w.steps with
      | .seq l =>
        if jsGtLen n l.length then .complete l.length inputs
        else .instruction stepStr (jsIndex l n) inputs (n.map (· + 1))
      | _ => .readError

/-! ## The plan builder's short description (workflow-execute) -/

/-- JS `a || b` on strings: the empty string is the only falsy string. -/
def jsOrStr (a b : String) : String := if a = "" then b else a

/-- The short description of a step in the execution plan:
`step.description || step.template?.substring(0, 60) + '...' || 'No description'`.
When `template` is absent, `step.template?.substring(0, 60)` is `undefined`
and `undefined + '...'` is the string `"undefined..."`. -/
def shortDesc (st : Step) : String :=
  jsOrStr (st.description.getD "")
    (jsOrStr ((match st.template with
                | some t => String.mk (t.data.take 60)
                | none => "undefined") ++ "...")
      "No description")

/-! ## Spec-side description of the flattened sequence (for the
depth-first-leaves property) -/

/-- Spec-side, for the refinement claim about acyclic graphs: the steps list
of a stored definition, when it is an array. -/
def storeSteps (store : String → Option RawWorkflow) (n : String) :
    Option (List Step) :=
  match store n with
  | some w =>
    match w.steps with
    | .seq l => some l
    | _ => none
  | none => none

/-- Spec-side companion of `specLeaves` for a step sequence: `rec` is the
leaf expansion of a referenced sub-workflow. -/
def specLeavesList (rec : String → Option (List Step)) :
    List Step → Option (List Step)
  | [] => some []
  | st :: rest =>
    if st.type = some "workflow" then
      match rec (subName st) with
      | none => none
      | some s =>
        match specLeavesList rec rest with
        | none => none
        | some t => some (s ++ t)
    else
      match specLeavesList rec rest with
      | none => none
      | some t => some (st :: t)

/-- Spec-side, following the spec's words: the leaf (non-`workflow`-typed)
steps reachable from workflow `a`, counted with multiplicity, in depth-first
left-to-right order of the original step sequences. -/
def specLeaves (store : String → Option RawWorkflow) :
    Nat → String → Option (List Step)
  | 0, _ => none
  | fuel + 1, a =>
    match storeSteps store a with
    | none => none
    | some l => specLeavesList (specLeaves store fuel) l

/-! ## Concrete example definitions used by the closed theorems -/

/-- A `workflow`-typed step referencing the workflow named `loop`. -/
def exStepLoop : Step := ⟨some "workflow", some "loop", none, none, none⟩

/-- A store with a single self-referencing workflow. -/
def exFsLoop : FS :=
  [(flattenFileName "p" "loop", ⟨some "loop", none, none, .seq [exStepLoop]⟩)]

/-- First diamond edge: a step of `A` referencing `B`. -/
def exStepD1 : Step := ⟨some "workflow", some "B", some "first call", none, none⟩

/-- Second diamond edge: a sibling step of `A` also referencing `B`. -/
def exStepD2 : Step := ⟨some "workflow", some "B", some "second call", none, none⟩

/-- The leaf step of the diamond's shared sub-workflow `B`. -/
def exLeafB : Step := ⟨some "prompt", none, none, some "do the thing", none⟩

/-- A diamond: `A` has two sibling steps, both referencing `B`. -/
def exFsDiamond : FS :=
  [(flattenFileName "p" "A", ⟨some "A", none, none, .seq [exStepD1, exStepD2]⟩),
   (flattenFileName "p" "B", ⟨some "B", none, none, .seq [exLeafB]⟩)]

/-- Chain edge `A → B`. -/
def exStepRefB : Step := ⟨some "workflow", some "B", some "outer call", none, none⟩

/-- Chain edge `B → C`. -/
def exStepRefC : Step := ⟨some "workflow", some "C", some "inner call", none, none⟩

/-- The leaf step contributed by workflow `C` of the chain. -/
def exLeafC : Step := ⟨some "prompt", none, some "leaf step", some "tpl", none⟩

/-- A two-level nesting chain `A → B → C`, `C` carrying one leaf step. -/
def exFsChain : FS :=
  [(flattenFileName "p" "A", ⟨some "A", none, none, .seq [exStepRefB]⟩),
   (flattenFileName "p" "B", ⟨some "B", none, none, .seq [exStepRefC]⟩),
   (flattenFileName "p" "C", ⟨some "C", none, none, .seq [exLeafC]⟩)]

/-- A store whose only workflow has an empty `steps` array. -/
def exFsEmptySteps : FS :=
  [(flattenFileName "p" "empty", ⟨some "empty", none, none, .seq []⟩)]

/-- A store whose only workflow has no `steps` field. -/
def exFsNoSteps : FS :=
  [(flattenFileName "p" "bad", ⟨some "bad", none, none, .missing⟩)]

/-- A workflow with two top-level steps, the second of which is a
`workflow`-typed step (so the flattened step count would differ from the
top-level count). -/
def exWfTop : RawWorkflow :=
  ⟨some "flow", none, none,
   .seq [⟨some "prompt", none, none, some "greet {{name}}", none⟩,
         ⟨some "workflow", some "other", none, none, none⟩]⟩

/-- A store holding `exWfTop` under the advancer's `.md` path. -/
def exFsRun : FS := [(runFileName "p" "flow", exWfTop)]

/-- A workflow with a single leaf (non-`workflow`) step. -/
def exWfLeafOnly : RawWorkflow :=
  ⟨some "doc", none, none, .seq [⟨some "prompt", none, none, some "x", none⟩]⟩

/-! ## Helper lemmas about the steps loop -/

theorem flattenSteps_error {f : String → Except WfError ResolvedWorkflow}
    {wn : String} {l : List Step} {e : WfError}
    (h : flattenSteps f wn l = .error e) :
    ∃ st ∈ l, st.type = some "workflow" ∧ f (subName st) = .error e := by
  induction l with
  | nil => simp [flattenSteps] at h
  | cons st rest ih =>
    simp only [flattenSteps] at h
    by_cases hw : st.type = some "workflow"
    · rw [if_pos hw] at h
      cases hf : f (subName st) with
      | error e2 =>
        rw [hf] at h
        cases h
        exact ⟨st, List.mem_cons_self st rest, hw, hf⟩
      | ok sub =>
        rw [hf] at h
        cases ht : flattenSteps f wn rest with
        | error e2 =>
          rw [ht] at h
          cases h
          obtain ⟨st2, hmem, hty, hsub⟩ := ih ht
          exact ⟨st2, List.mem_cons_of_mem st hmem, hty, hsub⟩
        | ok tail => rw [ht] at h; cases h
    · rw [if_neg hw] at h
      cases ht : flattenSteps f wn rest with
      | error e2 =>
        rw [ht] at h
        cases h
        obtain ⟨st2, hmem, hty, hsub⟩ := ih ht
        exact ⟨st2, List.mem_cons_of_mem st hmem, hty, hsub⟩
      | ok tail => rw [ht] at h; cases h

theorem flattenSteps_ok_sub {f : String → Except WfError ResolvedWorkflow}
    {wn : String} {l : List Step} {t : List ResolvedStep}
    (h : flattenSteps f wn l = .ok t) :
    ∀ st ∈ l, st.type = some "workflow" → ∃ r, f (subName st) = .ok r := by
  induction l generalizing t with
  | nil => intro st hmem; cases hmem
  | cons st0 rest ih =>
    intro st hmem hty
    simp only [flattenSteps] at h
    by_cases hw : st0.type = some "workflow"
    · rw [if_pos hw] at h
      cases hf : f (subName st0) with
      | error e2 => rw [hf] at h; cases h
      | ok sub =>
        rw [hf] at h
        cases ht : flattenSteps f wn rest with
        | error e2 => rw [ht] at h; cases h
        | ok tail =>
          rcases List.mem_cons.1 hmem with rfl | hmem2
          · exact ⟨sub, hf⟩
          · exact ih ht st hmem2 hty
    · rw [if_neg hw] at h
      cases ht : flattenSteps f wn rest with
      | error e2 => rw [ht] at h; cases h
      | ok tail =>
        rcases List.mem_cons.1 hmem with rfl | hmem2
        · exact absurd hty hw
        · exact ih ht st hmem2 hty

theorem flattenSteps_append (f : String → Except WfError ResolvedWorkflow)
    (wn : String) (xs ys : List Step) :
    flattenSteps f wn (xs ++ ys) =
      (flattenSteps f wn xs).bind
        (fun t1 => (flattenSteps f wn ys).map (fun t2 => t1 ++ t2)) := by
  induction xs with
  | nil =>
    cases hys : flattenSteps f wn ys with
    | error e => simp [flattenSteps, hys, Except.bind, Except.map]
    | ok t2 => simp [flattenSteps, hys, Except.bind, Except.map]
  | cons st rest ih =>
    by_cases hw : st.type = some "workflow"
    · cases hf : f (subName st) with
      | error e =>
        simp only [List.append_eq, List.cons_append, flattenSteps, if_pos hw, hf, Except.bind]
      | ok sub =>
        cases ht : flattenSteps f wn rest with
        | error e =>
          rw [ht] at ih
          simp only [List.append_eq, List.cons_append, flattenSteps, if_pos hw, hf, ih, ht, Except.bind]
        | ok t1 =>
          rw [ht] at ih
          cases hys : flattenSteps f wn ys with
          | error e =>
            rw [hys] at ih
            simp only [List.append_eq, List.cons_append, flattenSteps, if_pos hw, hf, ih, ht, hys,
              Except.bind, Except.map]
          | ok t2 =>
            rw [hys] at ih
            simp only [List.append_eq, List.cons_append, flattenSteps, if_pos hw, hf, ih, ht, hys,
              Except.bind, Except.map]
            simp [List.append_assoc]
    · cases ht : flattenSteps f wn rest with
      | error e =>
        rw [ht] at ih
        simp only [List.append_eq, List.cons_append, flattenSteps, if_neg hw, ih, ht, Except.bind]
      | ok t1 =>
        rw [ht] at ih
        cases hys : flattenSteps f wn ys with
        | error e =>
          rw [hys] at ih
          simp only [List.append_eq, List.cons_append, flattenSteps, if_neg hw, ih, ht, hys,
            Except.bind, Except.map]
        | ok t2 =>
          rw [hys] at ih
          simp only [List.append_eq, List.cons_append, flattenSteps, if_neg hw, ih, ht, hys,
            Except.bind, Except.map]

theorem flattenSteps_mem {f : String → Except WfError ResolvedWorkflow}
    {wn : String} {l : List Step} {t : List ResolvedStep}
    (h : flattenSteps f wn l = .ok t) :
    ∀ q ∈ t, (q.step ∈ l ∧ ¬ q.step.type = some "workflow" ∧
        q.sourceWorkflow = wn ∧ q.parentDescription = none) ∨
      (∃ st ∈ l, st.type = some "workflow" ∧
        q.sourceWorkflow = subName st ∧ q.parentDescription = st.description) := by
  induction l generalizing t with
  | nil =>
    simp only [flattenSteps] at h
    cases h
    intro q hq; cases hq
  | cons st0 rest ih =>
    intro q hq
    simp only [flattenSteps] at h
    by_cases hw : st0.type = some "workflow"
    · rw [if_pos hw] at h
      cases hf : f (subName st0) with
      | error e2 => rw [hf] at h; cases h
      | ok sub =>
        rw [hf] at h
        cases ht : flattenSteps f wn rest with
        | error e2 => rw [ht] at h; cases h
        | ok tail =>
          rw [ht] at h
          cases h
          rcases List.mem_append.1 hq with hq1 | hq2
          · obtain ⟨q0, _, rfl⟩ := List.mem_map.1 hq1
            exact Or.inr ⟨st0, List.mem_cons_self st0 rest, hw, rfl, rfl⟩
          · rcases ih ht q hq2 with ⟨h1, h2, h3, h4⟩ | ⟨st2, hmem, hty, h3, h4⟩
            · exact Or.inl ⟨List.mem_cons_of_mem st0 h1, h2, h3, h4⟩
            · exact Or.inr ⟨st2, List.mem_cons_of_mem st0 hmem, hty, h3, h4⟩
    · rw [if_neg hw] at h
      cases ht : flattenSteps f wn rest with
      | error e2 => rw [ht] at h; cases h
      | ok tail =>
        rw [ht] at h
        cases h
        rcases List.mem_cons.1 hq with rfl | hq2
        · exact Or.inl ⟨List.mem_cons_self st0 rest, hw, rfl, rfl⟩
        · rcases ih ht q hq2 with ⟨h1, h2, h3, h4⟩ | ⟨st2, hmem, hty, h3, h4⟩
          · exact Or.inl ⟨List.mem_cons_of_mem st0 h1, h2, h3, h4⟩
          · exact Or.inr ⟨st2, List.mem_cons_of_mem st0 hmem, hty, h3, h4⟩

theorem flattenSteps_no_workflow {f : String → Except WfError ResolvedWorkflow}
    {wn : String} {l : List Step}
    (h : ∀ st ∈ l, ¬ st.type = some "workflow") :
    flattenSteps f wn l = .ok (l.map (fun st => ⟨st, wn, none⟩)) := by
  induction l with
  | nil => rfl
  | cons st rest ih =>
    simp only [flattenSteps, if_neg (h st (List.mem_cons_self st rest))]
    rw [ih (fun st2 hmem => h st2 (List.mem_cons_of_mem st hmem))]
    rfl

/-! ## Helper lemmas about the resolver -/

theorem flattenAux_succ (store : String → Option RawWorkflow)
    (fuel : Nat) (wn : String) (visited : List String) :
    flattenAux store (fuel + 1) wn visited =
      if wn ∈ visited then .error (.circularDependency wn)
      else
        match store wn with
        | none => .error (.notFound wn)
        | some w =>
          match w.steps with
          | .seq l =>
            match flattenSteps (fun b => flattenAux store fuel b (wn :: visited)) wn l with
            | .error e => .error e
            | .ok fl => .ok ⟨w.name, w.description, w.expectedOutputs, fl⟩
          | _ => .error (.invalidDefinition wn) := rfl

theorem refs_intro {store : String → Option RawWorkflow} {a : String}
    {w : RawWorkflow} {l : List Step} {st : Step}
    (hs : store a = some w) (hst : w.steps = .seq l)
    (hmem : st ∈ l) (hty : st.type = some "workflow") :
    Refs store a (subName st) := by
  unfold Refs directRefs
  simp only [hs, hst]
  exact List.mem_filterMap.2 ⟨st, hmem, by rw [if_pos hty]⟩

theorem refs_elim {store : String → Option RawWorkflow} {a b : String}
    (h : Refs store a b) :
    ∃ w l st, store a = some w ∧ w.steps = .seq l ∧ st ∈ l ∧
      st.type = some "workflow" ∧ subName st = b := by
  unfold Refs directRefs at h
  cases hs : store a with
  | none => rw [hs] at h; cases h
  | some w =>
    simp only [hs] at h
    cases hst : w.steps with
    | seq l =>
      simp only [hst] at h
      obtain ⟨st, hmem, hif⟩ := List.mem_filterMap.1 h
      by_cases hty : st.type = some "workflow"
      · rw [if_pos hty] at hif
        cases hif
        exact ⟨w, l, st, rfl, hst, hmem, hty, rfl⟩
      · rw [if_neg hty] at hif; cases hif
    | missing => simp only [hst] at h; cases h
    | nonSeq => simp only [hst] at h; cases h

theorem flattenAux_mem_visited {store : String → Option RawWorkflow}
    {fuel : Nat} {wn : String} {visited : List String} (h : wn ∈ visited) :
    ∀ r, flattenAux store fuel wn visited ≠ .ok r := by
  intro r hc
  cases fuel with
  | zero => simp [flattenAux] at hc
  | succ f => rw [flattenAux_succ, if_pos h] at hc; cases hc

theorem flattenAux_ok_refs {store : String → Option RawWorkflow}
    {fuel : Nat} {wn : String} {visited : List String} {r : ResolvedWorkflow} {b : String}
    (h : flattenAux store (fuel + 1) wn visited = .ok r) (hb : Refs store wn b) :
    ∃ r2, flattenAux store fuel b (wn :: visited) = .ok r2 := by
  rw [flattenAux_succ] at h
  by_cases hv : wn ∈ visited
  · rw [if_pos hv] at h; cases h
  · rw [if_neg hv] at h
    obtain ⟨w, l, st, hs, hst, hmem, hty, hname⟩ := refs_elim hb
    simp only [hs, hst] at h
    cases hfl : flattenSteps (fun b => flattenAux store fuel b (wn :: visited)) wn l with
    | error e => rw [hfl] at h; cases h
    | ok fl =>
      obtain ⟨r2, h2⟩ := flattenSteps_ok_sub hfl st hmem hty
      exact ⟨r2, hname ▸ h2⟩

theorem flattenAux_ok_reaches {store : String → Option RawWorkflow} {a b : String}
    (hr : Reaches store a b) :
    ∀ fuel visited r, flattenAux store fuel a visited = .ok r →
      ∃ fuel2 visited2 r2, (a :: visited) ⊆ visited2 ∧
        flattenAux store fuel2 b visited2 = .ok r2 := by
  induction hr using Relation.TransGen.head_induction_on with
  | base hab =>
    intro fuel visited r h
    cases fuel with
    | zero => simp [flattenAux] at h
    | succ f =>
      obtain ⟨r2, h2⟩ := flattenAux_ok_refs h hab
      exact ⟨f, _ :: visited, r2, List.Subset.refl _, h2⟩
  | ih hac htrans ihc =>
    intro fuel visited r h
    cases fuel with
    | zero => simp [flattenAux] at h
    | succ f =>
      obtain ⟨r2, h2⟩ := flattenAux_ok_refs h hac
      obtain ⟨f3, v3, r3, hsub, h3⟩ := ihc f (_ :: visited) r2 h2
      refine ⟨f3, v3, r3, fun x hx => hsub ?_, h3⟩
      exact List.mem_cons_of_mem _ hx

theorem flattenAux_cycle_not_ok {store : String → Option RawWorkflow} {a : String}
    (hcyc : Reaches store a a) :
    ∀ fuel visited r, flattenAux store fuel a visited ≠ .ok r := by
  intro fuel visited r h
  obtain ⟨f2, v2, r2, hsub, h2⟩ := flattenAux_ok_reaches hcyc fuel visited r h
  exact flattenAux_mem_visited (hsub (List.mem_cons_self a visited)) r2 h2

theorem flattenAux_no_store_error (store : String → Option RawWorkflow) (root : String)
    (HS : ∀ n, InGraph store root n → ∃ w l, store n = some w ∧ w.steps = .seq l) :
    ∀ fuel wn visited m, InGraph store root wn →
      ¬(flattenAux store fuel wn visited = .error (.notFound m) ∨
        flattenAux store fuel wn visited = .error (.invalidDefinition m)) := by
  intro fuel
  induction fuel with
  | zero =>
    intro wn visited m hin hc
    rcases hc with hc | hc <;> simp [flattenAux] at hc
  | succ f ih =>
    intro wn visited m hin hc
    obtain ⟨w, l, hs, hst⟩ := HS wn hin
    simp only [flattenAux_succ] at hc
    by_cases hv : wn ∈ visited
    · simp [if_pos hv] at hc
    · simp only [if_neg hv, hs, hst] at hc
      cases hfl : flattenSteps (fun b => flattenAux store f b (wn :: visited)) wn l with
      | ok fl => simp [hfl] at hc
      | error e =>
        simp only [hfl] at hc
        obtain ⟨st, hmem, hty, hsub⟩ := flattenSteps_error hfl
        have hin2 : InGraph store root (subName st) :=
          hin.tail (refs_intro hs hst hmem hty)
        apply ih (subName st) (wn :: visited) m hin2
        rcases hc with hc | hc
        · cases hc; exact Or.inl hsub
        · cases hc; exact Or.inr hsub

theorem flattenAux_circ_name (store : String → Option RawWorkflow) (root : String) :
    ∀ fuel wn visited n,
      flattenAux store fuel wn visited = .error (.circularDependency n) →
      (∀ v ∈ visited, Reaches store v wn) →
      InGraph store root wn →
      (∀ v ∈ visited, InGraph store root v) →
      Reaches store n n ∧ InGraph store root n := by
  intro fuel
  induction fuel with
  | zero =>
    intro wn visited n hc
    simp [flattenAux] at hc
  | succ f ih =>
    intro wn visited n hc hvis hroot hvisroot
    rw [flattenAux_succ] at hc
    by_cases hv : wn ∈ visited
    · rw [if_pos hv] at hc
      cases hc
      exact ⟨hvis wn hv, hroot⟩
    · rw [if_neg hv] at hc
      cases hs : store wn with
      | none => rw [hs] at hc; cases hc
      | some w =>
        simp only [hs] at hc
        cases hst : w.steps with
        | missing => simp only [hst] at hc; cases hc
        | nonSeq => simp only [hst] at hc; cases hc
        | seq l =>
          simp only [hst] at hc
          cases hfl : flattenSteps (fun b => flattenAux store f b (wn :: visited)) wn l with
          | ok fl => simp only [hfl] at hc; cases hc
          | error e =>
            simp only [hfl] at hc
            cases hc
            obtain ⟨st, hmem, hty, hsub⟩ := flattenSteps_error hfl
            have hrefs : Refs store wn (subName st) := refs_intro hs hst hmem hty
            apply ih (subName st) (wn :: visited) n hsub
            · intro v hvmem
              rcases List.mem_cons.1 hvmem with rfl | hv2
              · exact Relation.TransGen.single hrefs
              · exact (hvis v hv2).tail hrefs
            · exact hroot.tail hrefs
            · intro v hvmem
              rcases List.mem_cons.1 hvmem with rfl | hv2
              · exact hroot
              · exact hvisroot v hv2

/-! ## Fuel sufficiency: the recursion depth is bounded by the number of
stored definitions, since every frame adds a distinct stored name to
`visited`. -/

theorem length_filter_mono {α : Type} (l : List α) (p q : α → Bool)
    (h : ∀ a, p a = true → q a = true) :
    (l.filter p).length ≤ (l.filter q).length := by
  induction l with
  | nil => simp
  | cons a l ih =>
    by_cases hp : p a = true
    · rw [List.filter_cons_of_pos hp, List.filter_cons_of_pos (h a hp)]
      simpa using ih
    · rw [List.filter_cons_of_neg (by simpa using hp)]
      by_cases hq : q a = true
      · rw [List.filter_cons_of_pos hq]
        exact Nat.le_succ_of_le ih
      · rw [List.filter_cons_of_neg (by simpa using hq)]
        exact ih

theorem length_filter_cons_lt {α : Type} [DecidableEq α] (K : List α) (a : α)
    (bs : List α) (ha : a ∈ K) (hnb : a ∉ bs) :
    (K.filter (fun p => !(a :: bs).contains p)).length <
      (K.filter (fun p => !bs.contains p)).length := by
  have himp : ∀ x, (!(a :: bs).contains x) = true → (!bs.contains x) = true := by
    intro x hx
    simp only [List.contains_cons, Bool.not_or, Bool.and_eq_true] at hx
    simpa using hx.2
  induction K with
  | nil => cases ha
  | cons k K ih =>
    by_cases h1 : (!(a :: bs).contains k) = true
    · have h2 : (!bs.contains k) = true := himp k h1
      rw [List.filter_cons_of_pos (p := fun x => !(a :: bs).contains x) h1,
        List.filter_cons_of_pos (p := fun x => !bs.contains x) h2]
      have hka : k ≠ a := by
        intro heq
        subst heq
        simp [List.contains_cons] at h1
      have haK : a ∈ K := by
        rcases List.mem_cons.1 ha with heq | hmem
        · exact absurd heq.symm hka
        · exact hmem
      simpa using ih haK
    · rw [List.filter_cons_of_neg (by simpa using h1)]
      by_cases h2 : (!bs.contains k) = true
      · rw [List.filter_cons_of_pos (p := fun x => !bs.contains x) h2]
        rcases List.mem_cons.1 ha with heq | haK
        · exact Nat.lt_succ_of_le
            (length_filter_mono K (fun p => !(a :: bs).contains p)
              (fun p => !bs.contains p) himp)
        · exact Nat.lt_succ_of_lt (ih haK)
      · rw [List.filter_cons_of_neg (by simpa using h2)]
        rcases List.mem_cons.1 ha with heq | haK
        · exfalso
          apply hnb
          rw [heq]
          simpa using h2
        · exact ih haK

theorem flattenAux_ne_outOfFuel (store : String → Option RawWorkflow)
    (kf : String → String) (K : List String)
    (hinj : ∀ x y, kf x = kf y → x = y)
    (hdom : ∀ n w, store n = some w → kf n ∈ K) :
    ∀ fuel visited wn,
      (K.filter (fun p => !((visited.map kf).contains p))).length < fuel →
      flattenAux store fuel wn visited ≠ .error .outOfFuel := by
  intro fuel
  induction fuel with
  | zero =>
    intro visited wn h
    exact absurd h (Nat.not_lt_zero _)
  | succ f ih =>
    intro visited wn hlt hc
    rw [flattenAux_succ] at hc
    by_cases hv : wn ∈ visited
    · rw [if_pos hv] at hc; cases hc
    · rw [if_neg hv] at hc
      cases hs : store wn with
      | none => rw [hs] at hc; cases hc
      | some w =>
        simp only [hs] at hc
        cases hst : w.steps with
        | missing => simp only [hst] at hc; cases hc
        | nonSeq => simp only [hst] at hc; cases hc
        | seq l =>
          simp only [hst] at hc
          cases hfl : flattenSteps (fun b => flattenAux store f b (wn :: visited)) wn l with
          | ok fl => simp only [hfl] at hc; cases hc
          | error e =>
            simp only [hfl] at hc
            cases hc
            obtain ⟨st, hmem, hty, hsub⟩ := flattenSteps_error hfl
            apply absurd hsub
            apply ih (wn :: visited) (subName st)
            have hkmem : kf wn ∈ K := hdom wn w hs
            have hknotin : kf wn ∉ visited.map kf := by
              intro hmem2
              obtain ⟨v, hv2, heq⟩ := List.mem_map.1 hmem2
              exact hv (hinj v wn heq ▸ hv2)
            have hlt2 := length_filter_cons_lt K (kf wn) (visited.map kf) hkmem hknotin
            have hmapeq : (wn :: visited).map kf = kf wn :: visited.map kf := rfl
            rw [hmapeq]
            omega

theorem lookupFS_some_mem {fs : FS} {q : String} {w : RawWorkflow}
    (h : lookupFS fs q = some w) : q ∈ fs.map Prod.fst := by
  induction fs with
  | nil => cases h
  | cons e rest ih =>
    obtain ⟨p, w2⟩ := e
    simp only [lookupFS] at h
    by_cases hp : p = q
    · subst hp; exact List.mem_cons_self _ _
    · rw [if_neg hp] at h
      exact List.mem_cons_of_mem _ (ih h)

theorem string_data_inj {s t : String} (h : s.data = t.data) : s = t := by
  cases s; cases t; exact congrArg String.mk h

theorem flattenFileName_inj (projectPath : String) {x y : String}
    (h : flattenFileName projectPath x = flattenFileName projectPath y) : x = y := by
  unfold flattenFileName at h
  have hd := congrArg String.data h
  simp only [String.data_append] at hd
  exact string_data_inj (List.append_cancel_left (List.append_cancel_right hd))

theorem runFileName_ne_flattenFileName (projectPath n : String) :
    runFileName projectPath n ≠ flattenFileName projectPath n := by
  intro h
  have hl := congrArg String.length h
  simp only [runFileName, flattenFileName, String.length_append] at hl
  have h3 : (".md" : String).length = 3 := rfl
  have h5 : (".json" : String).length = 5 := rfl
  omega

theorem loadAndFlatten_ne_outOfFuel (fs : FS) (projectPath wn : String) :
    loadAndFlattenWorkflow fs projectPath wn ≠ .error .outOfFuel := by
  unfold loadAndFlattenWorkflow
  apply flattenAux_ne_outOfFuel (jsonStore fs projectPath)
    (flattenFileName projectPath) (fs.map Prod.fst)
    (fun x y h => flattenFileName_inj projectPath h)
    (fun n w h => lookupFS_some_mem h)
  calc ((fs.map Prod.fst).filter
          (fun p => !((([] : List String).map (flattenFileName projectPath)).contains p))).length
      ≤ (fs.map Prod.fst).length := List.length_filter_le _ _
    _ = fs.length := List.length_map _ _
    _ < fs.length + 1 := Nat.lt_succ_self _

/-! ## Success on well-formed acyclic graphs, and the depth-first-leaves
refinement -/

theorem flattenAux_ok_of_acyclic (store : String → Option RawWorkflow) (root : String)
    (HS : ∀ n, InGraph store root n → ∃ w l, store n = some w ∧ w.steps = .seq l)
    (HA : ∀ n, InGraph store root n → ¬ Reaches store n n)
    (kf : String → String) (K : List String)
    (hinj : ∀ x y, kf x = kf y → x = y)
    (hdom : ∀ n w, store n = some w → kf n ∈ K)
    (fuel : Nat) (hfuel : K.length < fuel) :
    ∃ r, flattenAux store fuel root [] = .ok r := by
  cases hres : flattenAux store fuel root [] with
  | ok r => exact ⟨r, rfl⟩
  | error e =>
    exfalso
    cases e with
    | circularDependency n =>
      obtain ⟨hnn, hroot⟩ := flattenAux_circ_name store root fuel root [] n hres
        (by intro v hv; cases hv) Relation.ReflTransGen.refl (by intro v hv; cases hv)
      exact HA n hroot hnn
    | notFound m =>
      exact flattenAux_no_store_error store root HS fuel root [] m
        Relation.ReflTransGen.refl (Or.inl hres)
    | invalidDefinition m =>
      exact flattenAux_no_store_error store root HS fuel root [] m
        Relation.ReflTransGen.refl (Or.inr hres)
    | outOfFuel =>
      refine flattenAux_ne_outOfFuel store kf K hinj hdom fuel [] root ?_ hres
      calc (K.filter (fun p => !((([] : List String).map kf).contains p))).length
          ≤ K.length := List.length_filter_le _ _
        _ < fuel := hfuel

theorem specLeavesList_of_flattenSteps {store : String → Option RawWorkflow}
    {resolveSub : String → Except WfError ResolvedWorkflow} {fuel : Nat} {wn : String}
    (hrec : ∀ b r2, resolveSub b = .ok r2 →
      specLeaves store fuel b = some (r2.flattenedSteps.map (fun q => q.step))) :
    ∀ l t, flattenSteps resolveSub wn l = .ok t →
      specLeavesList (specLeaves store fuel) l = some (t.map (fun q => q.step)) := by
  intro l
  induction l with
  | nil =>
    intro t h
    cases h
    rfl
  | cons st rest ihl =>
    intro t h
    simp only [flattenSteps] at h
    by_cases hw : st.type = some "workflow"
    · rw [if_pos hw] at h
      cases hf2 : resolveSub (subName st) with
      | error e => rw [hf2] at h; cases h
      | ok sub =>
        rw [hf2] at h
        cases ht : flattenSteps resolveSub wn rest with
        | error e => rw [ht] at h; cases h
        | ok tail =>
          rw [ht] at h
          cases h
          simp only [specLeavesList, if_pos hw, hrec _ _ hf2, ihl tail ht]
          simp [List.map_append, List.map_map, Function.comp]
    · rw [if_neg hw] at h
      cases ht : flattenSteps resolveSub wn rest with
      | error e => rw [ht] at h; cases h
      | ok tail =>
        rw [ht] at h
        cases h
        simp only [specLeavesList, if_neg hw, ihl tail ht]
        rfl

theorem specLeaves_of_ok (store : String → Option RawWorkflow) :
    ∀ fuel wn visited r, flattenAux store fuel wn visited = .ok r →
      specLeaves store fuel wn = some (r.flattenedSteps.map (fun q => q.step)) := by
  intro fuel
  induction fuel with
  | zero =>
    intro wn visited r h
    simp [flattenAux] at h
  | succ f ih =>
    intro wn visited r h
    rw [flattenAux_succ] at h
    by_cases hv : wn ∈ visited
    · rw [if_pos hv] at h; cases h
    · rw [if_neg hv] at h
      cases hs : store wn with
      | none => rw [hs] at h; cases h
      | some w =>
        simp only [hs] at h
        cases hst : w.steps with
        | missing => simp only [hst] at h; cases h
        | nonSeq => simp only [hst] at h; cases h
        | seq l =>
          simp only [hst] at h
          cases hfl : flattenSteps (fun b => flattenAux store f b (wn :: visited)) wn l with
          | error e => simp only [hfl] at h; cases h
          | ok fl =>
            simp only [hfl] at h
            cases h
            have hss : storeSteps store wn = some l := by
              simp [storeSteps, hs, hst]
            simp only [specLeaves, hss]
            exact specLeavesList_of_flattenSteps
              (fun b r2 hb => ih b (wn :: visited) r2 hb) l fl hfl

/-! ## Helpers for discharging graph hypotheses at concrete stores -/

theorem inGraph_subset {store : String → Option RawWorkflow} {root : String}
    (S : List String) (hroot : root ∈ S)
    (hclosed : ∀ a ∈ S, ∀ b ∈ directRefs store a, b ∈ S) :
    ∀ n, InGraph store root n → n ∈ S := by
  intro n h
  induction h with
  | refl => exact hroot
  | tail _ hstep ih => exact hclosed _ ih _ hstep

theorem reaches_rank {store : String → Option RawWorkflow}
    (rank : String → Nat)
    (hrank : ∀ a b, Refs store a b → rank b < rank a) :
    ∀ {a b}, Reaches store a b → rank b < rank a := by
  intro a b h
  induction h with
  | single hstep => exact hrank _ _ hstep
  | tail _ hstep ih => exact Nat.lt_trans (hrank _ _ hstep) ih

theorem acyclic_of_rank {store : String → Option RawWorkflow}
    (rank : String → Nat)
    (hrank : ∀ a b, Refs store a b → rank b < rank a) :
    ∀ n, ¬ Reaches store n n := by
  intro n h
  exact Nat.lt_irrefl _ (reaches_rank rank hrank h)

theorem jsonStore_some_name {fs : FS} {projectPath a : String} {w : RawWorkflow}
    (h : jsonStore fs projectPath a = some w) :
    flattenFileName projectPath a ∈ fs.map Prod.fst :=
  lookupFS_some_mem h

/-! ## Claim theorems -/

/-- C4 counterexample: a workflow whose `steps` field is an empty array is
accepted by `loadAndFlattenWorkflow` — it resolves to an empty flattened
sequence instead of failing with `InvalidDefinition`, because the source
check `!workflow.steps || !Array.isArray(workflow.steps)` lets any array
through (an empty array is truthy in JS). -/
theorem c4_counterexample_empty_steps_resolve :
    loadAndFlattenWorkflow exFsEmptySteps "p" "empty" =
      .ok ⟨some "empty", none, none, []⟩ ∧
    loadAndFlattenWorkflow exFsEmptySteps "p" "empty" ≠
      .error (.invalidDefinition "empty") :=
  ⟨by decide, by decide⟩

/-- C4 (amended): a workflow definition whose `steps` field is missing or
not a sequence fails with `InvalidDefinition`; an empty `steps` sequence,
however, resolves successfully with an empty flattened sequence. -/
theorem c4_missing_or_nonseq_steps_invalid (fs : FS) (projectPath name : String)
    (w : RawWorkflow) (hw : jsonStore fs projectPath name = some w) :
    ((w.steps = .missing ∨ w.steps = .nonSeq) →
      loadAndFlattenWorkflow fs projectPath name =
        .error (.invalidDefinition name)) ∧
    (w.steps = .seq [] →
      loadAndFlattenWorkflow fs projectPath name =
        .ok ⟨w.name, w.description, w.expectedOutputs, []⟩) := by
  unfold loadAndFlattenWorkflow
  rw [flattenAux_succ, if_neg (List.not_mem_nil name)]
  simp only [hw]
  constructor
  · rintro (h | h) <;> simp [h]
  · intro h
    simp [h, flattenSteps]

/-- C4 witness: the amended theorem applied to a store with a missing
`steps` field and to a store with an empty `steps` array. -/
theorem c4_witness :
    jsonStore exFsNoSteps "p" "bad" = some ⟨some "bad", none, none, .missing⟩ ∧
    loadAndFlattenWorkflow exFsNoSteps "p" "bad" =
      .error (.invalidDefinition "bad") ∧
    loadAndFlattenWorkflow exFsEmptySteps "p" "empty" =
      .ok ⟨some "empty", none, none, []⟩ :=
  ⟨by decide,
   (c4_missing_or_nonseq_steps_invalid exFsNoSteps "p" "bad"
      ⟨some "bad", none, none, .missing⟩ (by decide)).1 (Or.inl rfl),
   (c4_missing_or_nonseq_steps_invalid exFsEmptySteps "p" "empty"
      ⟨some "empty", none, none, .seq []⟩ (by decide)).2 rfl⟩

/-- C5 counterexample: in the chain `A → B → C`, the leaf step is contained
in `C`'s steps list (third conjunct), yet after resolving `A` its
`sourceWorkflow` is `"B"` — the name on `A`'s own `workflow`-typed step —
and its `parentDescription` is `A`'s step description, because every splice
level overwrites both fields.  The claim would require `sourceWorkflow = "C"`
at this nesting depth, and `"B" ≠ "C"`. -/
theorem c5_counterexample_nested_provenance :
    loadAndFlattenWorkflow exFsChain "p" "A" =
      .ok ⟨some "A", none, none, [⟨exLeafC, "B", some "outer call"⟩]⟩ ∧
    jsonStore exFsChain "p" "C" = some ⟨some "C", none, none, .seq [exLeafC]⟩ ∧
    ("B" : String) ≠ "C" :=
  ⟨by decide, by decide, by decide⟩

/-- C5 (amended): the provenance written on a resolved step is determined by
the top level of the resolution alone.  Every step of a successful
resolution of `root` either is a direct non-`workflow` step of `root`
(`sourceWorkflow = root`, no `parentDescription`), or was spliced through
some root-level `workflow`-typed step `st` and carries
`sourceWorkflow = subName st` and `parentDescription = st.description` —
regardless of how deeply nested the workflow that actually contains the
step is, since each splice overwrites both fields. -/
theorem c5_top_level_provenance (store : String → Option RawWorkflow)
    (fuel : Nat) (root : String) (visited : List String) (r : ResolvedWorkflow)
    (w : RawWorkflow) (l : List Step)
    (h : flattenAux store (fuel + 1) root visited = .ok r)
    (hs : store root = some w) (hst : w.steps = .seq l) :
    ∀ q ∈ r.flattenedSteps,
      (q.step ∈ l ∧ ¬ q.step.type = some "workflow" ∧
        q.sourceWorkflow = root ∧ q.parentDescription = none) ∨
      (∃ st ∈ l, st.type = some "workflow" ∧
        q.sourceWorkflow = subName st ∧ q.parentDescription = st.description) := by
  rw [flattenAux_succ] at h
  by_cases hv : root ∈ visited
  · rw [if_pos hv] at h; cases h
  · rw [if_neg hv] at h
    simp only [hs, hst] at h
    cases hfl : flattenSteps (fun b => flattenAux store fuel b (root :: visited)) root l with
    | error e => simp only [hfl] at h; cases h
    | ok fl =>
      simp only [hfl] at h
      cases h
      exact flattenSteps_mem hfl

/-- C5 witness: the amended theorem applied to the chain `A → B → C` at its
single resolved step, which was spliced through `A`'s step referencing `B`. -/
theorem c5_witness :
    flattenAux (jsonStore exFsChain "p") 4 "A" [] =
      .ok ⟨some "A", none, none, [⟨exLeafC, "B", some "outer call"⟩]⟩ ∧
    (((⟨exLeafC, "B", some "outer call"⟩ : ResolvedStep).step ∈ [exStepRefB] ∧
        ¬ (⟨exLeafC, "B", some "outer call"⟩ : ResolvedStep).step.type = some "workflow" ∧
        (⟨exLeafC, "B", some "outer call"⟩ : ResolvedStep).sourceWorkflow = "A" ∧
        (⟨exLeafC, "B", some "outer call"⟩ : ResolvedStep).parentDescription = none) ∨
      (∃ st ∈ [exStepRefB], st.type = some "workflow" ∧
        (⟨exLeafC, "B", some "outer call"⟩ : ResolvedStep).sourceWorkflow = subName st ∧
        (⟨exLeafC, "B", some "outer call"⟩ : ResolvedStep).parentDescription =
          st.description)) :=
  ⟨by decide,
   c5_top_level_provenance (jsonStore exFsChain "p") 3 "A" []
     ⟨some "A", none, none, [⟨exLeafC, "B", some "outer call"⟩]⟩
     ⟨some "A", none, none, .seq [exStepRefB]⟩ [exStepRefB]
     (by decide) (by decide) rfl
     ⟨exLeafC, "B", some "outer call"⟩ (by decide)⟩

/-- C6: when the requested step number parses beyond the top-level step
count, the advancer returns the completion notice carrying the supplied
data value verbatim, for any data value of any type.  The comparison is
against the length of the unflattened top-level `steps` array `l` of the
`.md` definition — no flattening is involved anywhere in `workflowRun`. -/
theorem c6_advance_past_end_completes {α : Type} (fs : FS)
    (projectPath name : String) (w : RawWorkflow) (l : List Step)
    (s : String) (k : Int) (data : α)
    (hw : lookupFS fs (runFileName projectPath name) = some w)
    (hst : w.steps = .seq l)
    (hs : s ≠ "") (hk : jsNumber s = some k) (hgt : (l.length : Int) < k) :
    workflowRun fs projectPath name (some s) data = .complete l.length data := by
  unfold workflowRun
  simp only [hw, if_neg hs, hk, hst]
  have h1 : jsLtOne (some k) = false := by
    simp only [jsLtOne, decide_eq_false_iff_not]
    omega
  have h2 : jsGtLen (some k) l.length = true := by
    simp only [jsGtLen, decide_eq_true_eq]
    exact hgt
  rw [h1, h2]
  simp

/-- C6 witness: `exWfTop` has two top-level steps (one of them a
`workflow`-typed step, so the flattened count would differ); advancing with
step `"3"` completes, echoing the empty object. -/
theorem c6_witness :
    lookupFS exFsRun (runFileName "p" "flow") = some exWfTop ∧
    jsNumber "3" = some 3 ∧
    workflowRun exFsRun "p" "flow" (some "3") ([] : List (String × String)) =
      .complete 2 ([] : List (String × String)) :=
  ⟨by decide, by decide,
   c6_advance_past_end_completes exFsRun "p" "flow" exWfTop
     [⟨some "prompt", none, none, some "greet {{name}}", none⟩,
      ⟨some "workflow", some "other", none, none, none⟩]
     "3" 3 [] (by decide) rfl (by decide) (by decide) (by decide)⟩

/-- C7 counterexample: with `stepIndex = 0` and the named workflow absent
from the store, the advancer returns the generic read-error result, not the
`InvalidStepIndex` failure — `readFile` runs (and throws) before the
`Number(step) < 1` guard is ever reached. -/
theorem c7_counterexample_absent_workflow :
    workflowRun ([] : FS) "p" "ghost" (some "0")
        ([] : List (String × String)) = .readError ∧
    (RunResult.readError : RunResult (List (String × String))) ≠
      .invalidStepIndex :=
  ⟨by decide, by decide⟩

/-- C7 (amended): the `InvalidStepIndex` guard fires for a parsed step
number below one only after the workflow file was successfully read and
parsed (regardless of the shape of its `steps` field); when the file is
absent the advancer reports the read error instead. -/
theorem c7_invalid_index_guard_after_read {α : Type} (fs : FS)
    (projectPath name : String) (w : RawWorkflow) (s : String) (k : Int)
    (data : α) :
    (lookupFS fs (runFileName projectPath name) = some w → s ≠ "" →
      jsNumber s = some k → k < 1 →
      workflowRun fs projectPath name (some s) data = .invalidStepIndex) ∧
    (lookupFS fs (runFileName projectPath name) = none →
      workflowRun fs projectPath name (some s) data = .readError) := by
  constructor
  · intro hw hs hk hlt
    unfold workflowRun
    simp only [hw, if_neg hs, hk]
    have hguard : jsLtOne (some k) = true := by
      simp only [jsLtOne, decide_eq_true_eq]
      exact hlt
    rw [hguard]
    simp
  · intro hnone
    unfold workflowRun
    simp only [hnone]

/-- C7 witness: the amended theorem applied with step `"0"`, once with the
workflow present (guard fires) and once with an empty store (read error). -/
theorem c7_witness :
    jsNumber "0" = some 0 ∧
    workflowRun exFsRun "p" "flow" (some "0")
      ([] : List (String × String)) = .invalidStepIndex ∧
    workflowRun ([] : FS) "p" "flow" (some "0")
      ([] : List (String × String)) = .readError :=
  ⟨by decide,
   (c7_invalid_index_guard_after_read exFsRun "p" "flow" exWfTop "0" 0 []).1
     (by decide) (by decide) (by decide) (by decide),
   (c7_invalid_index_guard_after_read ([] : FS) "p" "flow" exWfTop "0" 0 []).2
     (by decide)⟩

/-- C8: evaluating the plan builder's short-description computation at a
step with neither a `description` nor a `template` field.  The source reads
`step.description || step.template?.substring(0, 60) + '...' || 'No
description'`; with `template` absent the middle operand is
`undefined + '...'`, i.e. the truthy string `"undefined..."`, so the
intended generic fallback `'No description'` is unreachable. -/
theorem c8_no_template_shows_undefined :
    shortDesc ⟨some "mcp", none, none, none, some "web_search"⟩ =
      "undefined..." ∧
    shortDesc ⟨some "mcp", none, none, none, some "web_search"⟩ ≠
      "No description" :=
  ⟨by decide, by decide⟩

/-- C9: a step string that does not parse to a number (JS `Number(step)` is
`NaN`) makes both the `< 1` guard and the `> length` ending condition
false, so the advancer returns an instruction bundle whose step definition
is the out-of-bounds array lookup (`undefined`, here `none`) and whose next
step index is `NaN` (`none`) — neither a validation failure nor a
completion notice. -/
theorem c9_nan_step_bypasses_guards {α : Type} (fs : FS)
    (projectPath name : String) (w : RawWorkflow) (l : List Step)
    (s : String) (data : α)
    (hw : lookupFS fs (runFileName projectPath name) = some w)
    (hst : w.steps = .seq l) (hs : s ≠ "") (hk : jsNumber s = none) :
    workflowRun fs projectPath name (some s) data =
      .instruction s none data none := by
  unfold workflowRun
  simp only [hw, if_neg hs, hk, hst]
  simp [jsLtOne, jsGtLen, jsIndex]

/-- C9 witness: advancing `flow` with step `"abc"` yields an instruction
bundle with no step definition and a `NaN` next index. -/
theorem c9_witness :
    jsNumber "abc" = none ∧
    workflowRun exFsRun "p" "flow" (some "abc")
        ([] : List (String × String)) =
      .instruction "abc" none ([] : List (String × String)) none :=
  ⟨by decide,
   c9_nan_step_bypasses_guards exFsRun "p" "flow" exWfTop
     [⟨some "prompt", none, none, some "greet {{name}}", none⟩,
      ⟨some "workflow", some "other", none, none, none⟩]
     "abc" [] (by decide) rfl (by decide) (by decide)⟩

/-- C10: the stepwise advancer and the saver address a workflow at
`<projectPath>/.workflow/<name>.md`, while the resolver reads
`<projectPath>/.workflow/<name>.json`.  The two paths always differ, so a
store holding only the `.md` entry lets the advancer proceed while the
resolver fails with a read error, and a store holding only the `.json`
entry does the opposite (the resolver succeeding there for a definition
with only leaf steps). -/
theorem c10_md_json_path_split {α : Type} (projectPath n : String)
    (w : RawWorkflow) (l : List Step) (data : α)
    (hst : w.steps = .seq l)
    (hleaf : ∀ st ∈ l, ¬ st.type = some "workflow") :
    runFileName projectPath n = saveFileName projectPath n ∧
    runFileName projectPath n ≠ flattenFileName projectPath n ∧
    (workflowRun [(runFileName projectPath n, w)] projectPath n
        (some "1") data ≠ .readError ∧
      loadAndFlattenWorkflow [(runFileName projectPath n, w)] projectPath n =
        .error (.notFound n)) ∧
    (workflowRun [(flattenFileName projectPath n, w)] projectPath n
        (some "1") data = .readError ∧
      loadAndFlattenWorkflow [(flattenFileName projectPath n, w)] projectPath n =
        .ok ⟨w.name, w.description, w.expectedOutputs,
              l.map (fun st => ⟨st, n, none⟩)⟩) := by
  refine ⟨?_, runFileName_ne_flattenFileName projectPath n, ⟨?_, ?_⟩, ?_, ?_⟩
  · unfold runFileName saveFileName
    rw [String.append_assoc projectPath "/.workflow" "/"]
    rfl
  · unfold workflowRun
    have hlk : lookupFS [(runFileName projectPath n, w)]
        (runFileName projectPath n) = some w := by
      simp [lookupFS]
    simp only [hlk, hst]
    have h1 : ("1" : String) ≠ "" := by decide
    have hk : jsNumber "1" = some 1 := by decide
    simp only [if_neg h1, hk]
    have hguard : jsLtOne (some 1) = false := by decide
    rw [hguard]
    by_cases hlen : jsGtLen (some 1) l.length = true
    · simp [hlen]
    · simp [Bool.eq_false_iff.2 hlen]
  · unfold loadAndFlattenWorkflow
    rw [flattenAux_succ, if_neg (List.not_mem_nil n)]
    have hlk : jsonStore [(runFileName projectPath n, w)] projectPath n = none := by
      unfold jsonStore
      simp [lookupFS, if_neg (runFileName_ne_flattenFileName projectPath n)]
    simp only [hlk]
  · unfold workflowRun
    have hlk : lookupFS [(flattenFileName projectPath n, w)]
        (runFileName projectPath n) = none := by
      have hne : flattenFileName projectPath n ≠ runFileName projectPath n :=
        Ne.symm (runFileName_ne_flattenFileName projectPath n)
      simp [lookupFS, hne]
    simp only [hlk]
  · unfold loadAndFlattenWorkflow
    rw [flattenAux_succ, if_neg (List.not_mem_nil n)]
    have hlk : jsonStore [(flattenFileName projectPath n, w)] projectPath n = some w := by
      unfold jsonStore
      simp [lookupFS]
    simp only [hlk, hst]
    rw [flattenSteps_no_workflow hleaf]

/-- C10 witness: the path split exhibited at the concrete name `doc` with a
one-leaf-step definition and the empty object as data. -/
theorem c10_witness :
    exWfLeafOnly.steps = .seq [⟨some "prompt", none, none, some "x", none⟩] ∧
    (runFileName "p" "doc" = saveFileName "p" "doc" ∧
     runFileName "p" "doc" ≠ flattenFileName "p" "doc" ∧
     (workflowRun [(runFileName "p" "doc", exWfLeafOnly)] "p" "doc"
         (some "1") ([] : List (String × String)) ≠ .readError ∧
       loadAndFlattenWorkflow [(runFileName "p" "doc", exWfLeafOnly)] "p" "doc" =
         .error (.notFound "doc")) ∧
     (workflowRun [(flattenFileName "p" "doc", exWfLeafOnly)] "p" "doc"
         (some "1") ([] : List (String × String)) = .readError ∧
       loadAndFlattenWorkflow [(flattenFileName "p" "doc", exWfLeafOnly)] "p" "doc" =
         .ok ⟨some "doc", none, none,
               [⟨⟨some "prompt", none, none, some "x", none⟩, "doc", none⟩]⟩)) :=
  ⟨rfl,
   c10_md_json_path_split "p" "doc" exWfLeafOnly
     [⟨some "prompt", none, none, some "x", none⟩]
     ([] : List (String × String)) rfl (by decide)⟩

theorem jsonStore_names {fs : FS} {projectPath : String} (names : List String)
    (hkeys : fs.map Prod.fst = names.map (flattenFileName projectPath)) :
    ∀ a w, jsonStore fs projectPath a = some w → a ∈ names := by
  intro a w h
  have hmem := lookupFS_some_mem h
  rw [hkeys] at hmem
  obtain ⟨b, hb, heq⟩ := List.mem_map.1 hmem
  exact (flattenFileName_inj projectPath heq) ▸ hb

theorem refs_names {fs : FS} {projectPath : String} (names : List String)
    (hkeys : fs.map Prod.fst = names.map (flattenFileName projectPath)) :
    ∀ a b, Refs (jsonStore fs projectPath) a b → a ∈ names := by
  intro a b h
  obtain ⟨w, l, st, hs, _, _, _, _⟩ := refs_elim h
  exact jsonStore_names names hkeys a w hs

/-- C1: on a store whose reachable definitions are all present with array
`steps` (`HS`), resolving a workflow that directly or transitively
references itself fails with `CircularDependency` naming a workflow that
closed the cycle — a workflow that strictly reaches itself — rather than
recursing unboundedly (the result is a definite error value; the fuel bound
`fs.length + 1` is proved never to run out). -/
theorem c1_circular_reference_fails (fs : FS) (projectPath root : String)
    (HS : ∀ n, InGraph (jsonStore fs projectPath) root n →
      ∃ w l, jsonStore fs projectPath n = some w ∧ w.steps = .seq l)
    (hcyc : Reaches (jsonStore fs projectPath) root root) :
    ∃ n, loadAndFlattenWorkflow fs projectPath root =
        .error (.circularDependency n) ∧
      Reaches (jsonStore fs projectPath) n n := by
  cases hres : loadAndFlattenWorkflow fs projectPath root with
  | ok r => exact absurd hres (flattenAux_cycle_not_ok hcyc _ _ r)
  | error e =>
    cases e with
    | circularDependency n =>
      obtain ⟨hnn, _⟩ := flattenAux_circ_name (jsonStore fs projectPath) root
        (fs.length + 1) root [] n hres (by intro v hv; cases hv)
        Relation.ReflTransGen.refl (by intro v hv; cases hv)
      exact ⟨n, rfl, hnn⟩
    | notFound m =>
      exact absurd (Or.inl hres)
        (flattenAux_no_store_error _ root HS _ root [] m Relation.ReflTransGen.refl)
    | invalidDefinition m =>
      exact absurd (Or.inr hres)
        (flattenAux_no_store_error _ root HS _ root [] m Relation.ReflTransGen.refl)
    | outOfFuel => exact absurd hres (loadAndFlatten_ne_outOfFuel fs projectPath root)

/-- C1 witness: the self-referencing workflow `loop` reaches itself, and
resolving it fails with `CircularDependency` naming a cycle-closing
workflow. -/
theorem c1_witness :
    Reaches (jsonStore exFsLoop "p") "loop" "loop" ∧
    ∃ n, loadAndFlattenWorkflow exFsLoop "p" "loop" =
        .error (.circularDependency n) ∧
      Reaches (jsonStore exFsLoop "p") n n := by
  have hcyc : Reaches (jsonStore exFsLoop "p") "loop" "loop" :=
    Relation.TransGen.single
      (show "loop" ∈ directRefs (jsonStore exFsLoop "p") "loop" by decide)
  refine ⟨hcyc, c1_circular_reference_fails exFsLoop "p" "loop" ?_ hcyc⟩
  intro n hn
  have hmem := inGraph_subset ["loop"] (by decide)
    (by decide :
      ∀ a ∈ ["loop"], ∀ b ∈ directRefs (jsonStore exFsLoop "p") a, b ∈ ["loop"])
    n hn
  simp only [List.mem_singleton] at hmem
  subst hmem
  exact ⟨⟨some "loop", none, none, .seq [exStepLoop]⟩, [exStepLoop], by decide, rfl⟩

/-- C3: on a store whose definitions reachable from `root` are all present
with array `steps` (`HS`) and whose reachable reference graph is acyclic
(`HA`), resolution terminates successfully, and the flattened sequence is
exactly the spec-side depth-first left-to-right sequence of leaf steps
reachable from the root (`specLeaves`), counted with multiplicity; in
particular the lengths agree. -/
theorem c3_acyclic_resolution_dfs_leaves (fs : FS) (projectPath root : String)
    (HS : ∀ n, InGraph (jsonStore fs projectPath) root n →
      ∃ w l, jsonStore fs projectPath n = some w ∧ w.steps = .seq l)
    (HA : ∀ n, InGraph (jsonStore fs projectPath) root n →
      ¬ Reaches (jsonStore fs projectPath) n n) :
    ∃ r leaves,
      loadAndFlattenWorkflow fs projectPath root = .ok r ∧
      specLeaves (jsonStore fs projectPath) (fs.length + 1) root = some leaves ∧
      r.flattenedSteps.map (fun q => q.step) = leaves ∧
      r.flattenedSteps.length = leaves.length := by
  obtain ⟨r, hr⟩ := flattenAux_ok_of_acyclic (jsonStore fs projectPath) root HS HA
    (flattenFileName projectPath) (fs.map Prod.fst)
    (fun x y h => flattenFileName_inj projectPath h)
    (fun n w h => lookupFS_some_mem h)
    (fs.length + 1) (by simp)
  refine ⟨r, r.flattenedSteps.map (fun q => q.step), hr,
    specLeaves_of_ok _ _ root [] r hr, rfl, ?_⟩
  rw [List.length_map]

/-- C3 witness: the chain `A → B → C` is acyclic; resolving `A` succeeds and
the flattened sequence matches the spec-side leaf sequence `[exLeafC]`. -/
theorem c3_witness :
    (jsonStore exFsChain "p" "A" =
      some ⟨some "A", none, none, .seq [exStepRefB]⟩) ∧
    ∃ r leaves,
      loadAndFlattenWorkflow exFsChain "p" "A" = .ok r ∧
      specLeaves (jsonStore exFsChain "p") (exFsChain.length + 1) "A" =
        some leaves ∧
      r.flattenedSteps.map (fun q => q.step) = leaves ∧
      r.flattenedSteps.length = leaves.length := by
  refine ⟨by decide, c3_acyclic_resolution_dfs_leaves exFsChain "p" "A" ?_ ?_⟩
  · intro n hn
    have hmem := inGraph_subset ["A", "B", "C"] (by decide)
      (by decide :
        ∀ a ∈ ["A", "B", "C"],
          ∀ b ∈ directRefs (jsonStore exFsChain "p") a, b ∈ ["A", "B", "C"])
      n hn
    rcases List.mem_cons.1 hmem with rfl | hmem2
    · exact ⟨⟨some "A", none, none, .seq [exStepRefB]⟩, [exStepRefB], by decide, rfl⟩
    rcases List.mem_cons.1 hmem2 with rfl | hmem3
    · exact ⟨⟨some "B", none, none, .seq [exStepRefC]⟩, [exStepRefC], by decide, rfl⟩
    rcases List.mem_cons.1 hmem3 with rfl | hmem4
    · exact ⟨⟨some "C", none, none, .seq [exLeafC]⟩, [exLeafC], by decide, rfl⟩
    cases hmem4
  · intro n _
    apply acyclic_of_rank
      (fun s => if s = "A" then 2 else if s = "B" then 1 else 0)
    intro a b h
    have ha := @refs_names exFsChain "p" ["A", "B", "C"] rfl a b h
    have hb : b ∈ directRefs (jsonStore exFsChain "p") a := h
    rcases List.mem_cons.1 ha with rfl | ha2
    · have hda : directRefs (jsonStore exFsChain "p") "A" = ["B"] := by decide
      rw [hda] at hb
      rcases List.mem_cons.1 hb with rfl | hb2
      · decide
      cases hb2
    rcases List.mem_cons.1 ha2 with rfl | ha3
    · have hdb : directRefs (jsonStore exFsChain "p") "B" = ["C"] := by decide
      rw [hdb] at hb
      rcases List.mem_cons.1 hb with rfl | hb2
      · decide
      cases hb2
    rcases List.mem_cons.1 ha3 with rfl | ha4
    · have hdc : directRefs (jsonStore exFsChain "p") "C" = [] := by decide
      rw [hdc] at hb
      cases hb
    cases ha4

/-- C2: a workflow `A` with two sibling `workflow`-typed steps `s1` and `s2`
both referencing the same sub-workflow `B` (a diamond) resolves
successfully on a well-formed acyclic store — each branch carries its own
copy of the visited set, so the shared reference is not flagged as a cycle
— and the resolved steps of `B` (one and the same sub-resolution `rB`) are
spliced into `A`'s flattened sequence twice, once per referencing step,
each copy annotated with that step's description. -/
theorem c2_diamond_inlines_twice (fs : FS) (projectPath A B : String)
    (wA : RawWorkflow) (pre mid post : List Step) (s1 s2 : Step)
    (HS : ∀ n, InGraph (jsonStore fs projectPath) A n →
      ∃ w l, jsonStore fs projectPath n = some w ∧ w.steps = .seq l)
    (HA : ∀ n, InGraph (jsonStore fs projectPath) A n →
      ¬ Reaches (jsonStore fs projectPath) n n)
    (hsA : jsonStore fs projectPath A = some wA)
    (hstA : wA.steps = .seq (pre ++ s1 :: mid ++ s2 :: post))
    (h1ty : s1.type = some "workflow") (h1wf : s1.workflow = some B)
    (h2ty : s2.type = some "workflow") (h2wf : s2.workflow = some B) :
    ∃ r rB t1 t2 t3,
      loadAndFlattenWorkflow fs projectPath A = .ok r ∧
      flattenAux (jsonStore fs projectPath) fs.length B [A] = .ok rB ∧
      r.flattenedSteps =
        t1 ++ rB.flattenedSteps.map (fun q => ⟨q.step, B, s1.description⟩) ++
        t2 ++ rB.flattenedSteps.map (fun q => ⟨q.step, B, s2.description⟩) ++
        t3 := by
  obtain ⟨r, hr⟩ := flattenAux_ok_of_acyclic (jsonStore fs projectPath) A HS HA
    (flattenFileName projectPath) (fs.map Prod.fst)
    (fun x y h => flattenFileName_inj projectPath h)
    (fun n w h => lookupFS_some_mem h)
    (fs.length + 1) (by simp)
  have hr0 : loadAndFlattenWorkflow fs projectPath A = .ok r := hr
  rw [flattenAux_succ, if_neg (List.not_mem_nil A)] at hr
  simp only [hsA, hstA] at hr
  cases hfl : flattenSteps
      (fun b => flattenAux (jsonStore fs projectPath) fs.length b (A :: []))
      A (pre ++ s1 :: mid ++ s2 :: post) with
  | error e => simp only [hfl] at hr; cases hr
  | ok fl =>
    simp only [hfl] at hr
    cases hr
    rw [flattenSteps_append] at hfl
    cases hx : flattenSteps
        (fun b => flattenAux (jsonStore fs projectPath) fs.length b (A :: []))
        A (pre ++ s1 :: mid) with
    | error e => simp only [hx, Except.bind] at hfl; cases hfl
    | ok v =>
      simp only [hx, Except.bind] at hfl
      cases hy : flattenSteps
          (fun b => flattenAux (jsonStore fs projectPath) fs.length b (A :: []))
          A (s2 :: post) with
      | error e => simp only [hy, Except.map] at hfl; cases hfl
      | ok v2 =>
        simp only [hy, Except.map] at hfl
        cases hfl
        rw [flattenSteps_append] at hx
        cases h1 : flattenSteps
            (fun b => flattenAux (jsonStore fs projectPath) fs.length b (A :: []))
            A pre with
        | error e => simp only [h1, Except.bind] at hx; cases hx
        | ok t1 =>
          simp only [h1, Except.bind] at hx
          cases h1b : flattenSteps
              (fun b => flattenAux (jsonStore fs projectPath) fs.length b (A :: []))
              A (s1 :: mid) with
          | error e => simp only [h1b, Except.map] at hx; cases hx
          | ok v1 =>
            simp only [h1b, Except.map] at hx
            cases hx
            have hsub1 : subName s1 = B := by simp [subName, h1wf]
            simp only [flattenSteps] at h1b
            rw [if_pos h1ty, hsub1] at h1b
            cases hB : flattenAux (jsonStore fs projectPath) fs.length B (A :: []) with
            | error e => simp only [hB] at h1b; cases h1b
            | ok rB =>
              simp only [hB] at h1b
              cases h2m : flattenSteps
                  (fun b => flattenAux (jsonStore fs projectPath) fs.length b (A :: []))
                  A mid with
              | error e => simp only [h2m] at h1b; cases h1b
              | ok t2 =>
                simp only [h2m] at h1b
                cases h1b
                have hsub2 : subName s2 = B := by simp [subName, h2wf]
                simp only [flattenSteps] at hy
                rw [if_pos h2ty, hsub2, hB] at hy
                cases h3p : flattenSteps
                    (fun b => flattenAux (jsonStore fs projectPath) fs.length b (A :: []))
                    A post with
                | error e => simp only [h3p] at hy; cases hy
                | ok t3 =>
                  simp only [h3p] at hy
                  cases hy
                  refine ⟨_, rB, t1, t2, t3, hr0, rfl, ?_⟩
                  simp [List.append_assoc]

/-- C2 witness: the concrete diamond — `A` with two sibling steps both
referencing `B` — resolves successfully and splices `B`'s resolved steps in
twice, once per referencing step. -/
theorem c2_witness :
    jsonStore exFsDiamond "p" "A" =
      some ⟨some "A", none, none, .seq [exStepD1, exStepD2]⟩ ∧
    ∃ r rB t1 t2 t3,
      loadAndFlattenWorkflow exFsDiamond "p" "A" = .ok r ∧
      flattenAux (jsonStore exFsDiamond "p") exFsDiamond.length "B" ["A"] =
        .ok rB ∧
      r.flattenedSteps =
        t1 ++ rB.flattenedSteps.map
            (fun q => ⟨q.step, "B", exStepD1.description⟩) ++
        t2 ++ rB.flattenedSteps.map
            (fun q => ⟨q.step, "B", exStepD2.description⟩) ++
        t3 := by
  refine ⟨by decide, c2_diamond_inlines_twice exFsDiamond "p" "A" "B"
    ⟨some "A", none, none, .seq [exStepD1, exStepD2]⟩ [] [] [] exStepD1 exStepD2
    ?_ ?_ (by decide) rfl rfl rfl rfl rfl⟩
  · intro n hn
    have hmem := inGraph_subset ["A", "B"] (by decide)
      (by decide :
        ∀ a ∈ ["A", "B"],
          ∀ b ∈ directRefs (jsonStore exFsDiamond "p") a, b ∈ ["A", "B"])
      n hn
    rcases List.mem_cons.1 hmem with rfl | hmem2
    · exact ⟨⟨some "A", none, none, .seq [exStepD1, exStepD2]⟩,
        [exStepD1, exStepD2], by decide, rfl⟩
    rcases List.mem_cons.1 hmem2 with rfl | hmem3
    · exact ⟨⟨some "B", none, none, .seq [exLeafB]⟩, [exLeafB], by decide, rfl⟩
    cases hmem3
  · intro n _
    apply acyclic_of_rank (fun s => if s = "A" then 1 else 0)
    intro a b h
    have ha := @refs_names exFsDiamond "p" ["A", "B"] rfl a b h
    have hb : b ∈ directRefs (jsonStore exFsDiamond "p") a := h
    rcases List.mem_cons.1 ha with rfl | ha2
    · have hda : directRefs (jsonStore exFsDiamond "p") "A" = ["B", "B"] := by
        decide
      rw [hda] at hb
      rcases List.mem_cons.1 hb with rfl | hb2
      · decide
      rcases List.mem_cons.1 hb2 with rfl | hb3
      · decide
      cases hb3
    rcases List.mem_cons.1 ha2 with rfl | ha3
    · have hdb : directRefs (jsonStore exFsDiamond "p") "B" = [] := by decide
      rw [hdb] at hb
      cases hb
    cases ha3
